import Mathlib

/-!
Verification development for the efficient Gaussian tensor-network embedding
planner (`embeddings/efficient_gaussian_embedding.py`).

Shallow embedding conventions:
* Node ids and edge ids are natural numbers; a contraction-path entry is a
  pair of node ids, exactly as in the Python source.
* A `PNode` records a node's ordered edge list and its tensor shape
  (`Node.edges` / `Node.tensor.shape`); `np`-style tensor size is the product
  of the shape.  Python integers are unbounded, so sizes live in `ℕ`
  (numpy's silent int64 wrap-around on huge products is not modelled).
* Python floats are modelled as real numbers (`ℝ`); `int(...)` is truncation
  toward zero.
* The mutating calls the planner issues on the `TensorNetwork` collaborator
  (`sketch`, `contract`, `tree_sketch_and_contract`, `tn_sketch_and_contract_s`)
  are recorded as an operation trace (`Op`); the collaborator itself is out of
  scope for the planner and its sketching behaviour is modelled from the spec
  where a claim needs it.
-/

/-- Edge identifier (edge identity in the Python source is object identity). -/
abbrev Edge := ℕ

/-- The slice of `Node` the planner reads: the ordered edge list and the
tensor shape, positionally aligned (`Node.edges`, `Node.tensor.shape`). -/
structure PNode where
  edges : List Edge
  shape : List ℕ
deriving DecidableEq, Repr

/-- `Node.tensor.size`: numpy's element count, the product of the shape. -/
def PNode.size (u : PNode) : ℕ := u.shape.prod

/-- Python dict lookup over an association list built by successive insertion:
a later binding of the same key wins (`{edge: current_shape[i] ...}`). -/
def dictLookup (l : List (Edge × ℕ)) (e : Edge) : ℕ :=
  (l.reverse.lookup e).getD 0

/-- The dict `U_edges = {edge: current_shape[i] for i, edge in enumerate(U.edges)}`
from `_contraction_path_minimize_U`, as an association list.  (Python would
raise `IndexError` if `U.edges` were longer than the shape; `zip` truncates,
so statements only apply this to length-consistent nodes.) -/
def uEdgesOf (U : PNode) : List (Edge × ℕ) := U.edges.zip U.shape

/-- The inner loop of `_contraction_path_minimize_U` collecting
`contracted_indices`: for each edge of `U` (original edge list, kept fixed by
the source across steps) that also occurs in `V.edges`, append the dimension
recorded for it in `U_edges`. -/
def contractedIndices (Uep : List (Edge × ℕ)) (V : PNode) : List ℕ :=
  ((Uep.map Prod.fst).filter (fun e => e ∈ V.edges)).map (dictLookup Uep)

/-- One simulation step of `_contraction_path_minimize_U`:
`new_shape = [dim for dim in current_shape if dim not in contracted_indices]
           + [dim for dim in V.tensor.shape if dim not in contracted_indices]`.
Note the source filters by dimension *value*, not by edge identity. -/
def stepShape (Uep : List (Edge × ℕ)) (cur : List ℕ) (V : PNode) : List ℕ :=
  let cd := contractedIndices Uep V
  cur.filter (fun d => d ∉ cd) ++ V.shape.filter (fun d => d ∉ cd)

/-- The successive `current_shape` values tracked by the simulation loop,
one per contraction partner. -/
def shapesSeq (Uep : List (Edge × ℕ)) (cur : List ℕ) : List PNode → List (List ℕ)
  | [] => []
  | V :: rest =>
      let ns := stepShape Uep cur V
      ns :: shapesSeq Uep ns rest

/-- The successive `new_U_size` values (`np.prod(new_shape)`) of the
simulation, one per contraction partner. -/
def sizesSeq (U : PNode) (order : List PNode) : List ℕ :=
  (shapesSeq (uEdgesOf U) U.shape order).map List.prod

/-- Loop body of `_contraction_path_minimize_U`: carries `current_shape`,
`min_U_size`, `min_index` (which starts at `-1`) and the running index `i`. -/
def minimizeUGo (Uep : List (Edge × ℕ)) (cur : List ℕ) (minSize : ℕ)
    (minIdx : ℤ) (i : ℕ) : List PNode → ℕ × ℤ
  | [] => (minSize, minIdx)
  | V :: rest =>
      let ns := stepShape Uep cur V
      let nsize := ns.prod
      if nsize < minSize then minimizeUGo Uep ns nsize i (i + 1) rest
      else minimizeUGo Uep ns minSize minIdx (i + 1) rest

/-- `_contraction_path_minimize_U(U, contraction_order)`: the minimal size `U`
reaches during the simulated contractions (its initial size included, as in
the source) and the step index at which that minimum is first reached
(`-1` when no step goes below the initial size). -/
def contraction_path_minimize_U (U : PNode) (order : List PNode) : ℕ × ℤ :=
  minimizeUGo (uEdgesOf U) U.shape U.size (-1) 0 order

/-- All ways to pick one element of a list together with the remaining
elements, in position order; mirrors how `itertools.permutations` chooses the
first element of each emitted ordering. -/
def selections : List α → List (α × List α)
  | [] => []
  | x :: xs => (x, xs) :: (selections xs).map (fun p => (p.1, x :: p.2))

/-- Fuel-indexed body of `pyPerms`; the fuel is only there to make the
recursion structural and always equals at least the list length. -/
def pyPermsAux : ℕ → List α → List (List α)
  | 0, _ => [[]]
  | _ + 1, [] => [[]]
  | n + 1, l => (selections l).flatMap (fun p => (pyPermsAux n p.2).map (p.1 :: ·))

/-- `list(itertools.permutations(l))`: every ordering of `l`, enumerated by
choosing the first element in list order, then recursing on the rest — the
exact enumeration order of `itertools.permutations`, which matters because
`np.argmin` breaks ties by taking the earliest index. -/
def pyPerms (l : List α) : List (List α) := pyPermsAux l.length l

/-- `np.argmin` on a list: the index of the first occurrence of the minimum
(numpy documents first-occurrence tie-breaking).  `argminList []` is never
used by the planner (numpy would raise). -/
def argminList : List ℕ → ℕ
  | [] => 0
  | x :: xs => (x :: xs).indexOf (xs.foldl min x)

/-- `j_nodes = [u if v == i else v for u, v in D_e_i]`: the contraction
partner of anchor `i` in each entry of a `D[e]` group. -/
def jNodesOf (D_e_i : List (ℕ × ℕ)) (i : ℕ) : List ℕ :=
  D_e_i.map (fun c => if c.2 = i then c.1 else c.2)

/-- The `u_possible_sizes` list of `_calculate_contraction_path_shapes`:
for each enumerated permutation, the minimal simulated size of the anchor. -/
def uPossibleSizes (nodes : ℕ → PNode) (D_e_i : List (ℕ × ℕ)) (i : ℕ) : List ℕ :=
  (pyPerms (jNodesOf D_e_i i)).map
    (fun p => (contraction_path_minimize_U (nodes i) (p.map nodes)).1)

/-- The permutation selected by `np.argmin(u_possible_sizes)` in
`_calculate_contraction_path_shapes`. -/
def chosenPermutation (nodes : ℕ → PNode) (D_e_i : List (ℕ × ℕ)) (i : ℕ) : List ℕ :=
  (pyPerms (jNodesOf D_e_i i)).getD (argminList (uPossibleSizes nodes D_e_i i)) []

/-- The `u_possible_sketching_index` entry of the selected permutation. -/
def sketchIdxOf (nodes : ℕ → PNode) (D_e_i : List (ℕ × ℕ)) (i : ℕ) : ℤ :=
  (((pyPerms (jNodesOf D_e_i i)).map
      (fun p => (contraction_path_minimize_U (nodes i) (p.map nodes)).2)).getD
    (argminList (uPossibleSizes nodes D_e_i i)) 0)

/-- `_calculate_contraction_path_shapes(x, D_e_i, i)`: the selected ordering
of the anchor's partners with `None` inserted at `sketch_index + 1`, zipped
against the constant anchor index (`zip([i] * len(chosen_path), chosen_path)`).
An entry `(i, some j)` is a pending `contract(i, j)`; `(i, none)` is the
sketch marker. -/
def calculate_contraction_path_shapes (nodes : ℕ → PNode) (D_e_i : List (ℕ × ℕ))
    (i : ℕ) : List (ℕ × Option ℕ) :=
  let chosen_path : List (Option ℕ) :=
    ((chosenPermutation nodes D_e_i i).map some).insertIdx
      (sketchIdxOf nodes D_e_i i + 1).toNat none
  (List.replicate chosen_path.length i).zip chosen_path

/-- Accumulator of `_partition_contractions`: the dict `D` (bucket list per
to-be-sketched edge), `S`, and `I_S`.  The Python `D` is a dict whose keys
are exactly `edges_to_sketch`; it is modelled as a total map that is `[]`
away from those keys (Python would raise `KeyError` on an append to a
missing key, so statements that need it assume every dangling edge is a key). -/
structure PartitionAcc where
  D : Edge → List (ℕ × ℕ)
  S : List (ℕ × ℕ)
  I_S : List (ℕ × ℕ)

/-- One iteration of the `_partition_contractions` loop over a path entry.
`dang n` is `x[n].get_all_dangling()` — per the collaborator contract, the
node's dangling edges that require sketching; the network is not mutated
during partitioning, so `dang` is constant across the loop.
Python truthiness `if u_dims and v_dims` is nonzero-ness of the counts. -/
def partitionStep (dang : ℕ → List Edge) (acc : PartitionAcc) (c : ℕ × ℕ) :
    PartitionAcc :=
  let ud := dang c.1
  let vd := dang c.2
  if ud.length ≠ 0 ∧ vd.length ≠ 0 then
    { acc with S := acc.S ++ [c], I_S := acc.I_S ++ [c] }
  else if ud.length = 1 then
    { acc with D := fun e => if e = ud.headI then acc.D e ++ [c] else acc.D e }
  else if vd.length = 1 then
    { acc with D := fun e => if e = vd.headI then acc.D e ++ [c] else acc.D e }
  else
    { acc with I_S := acc.I_S ++ [c] }

/-- `_partition_contractions(x, contraction_path, edges_to_sketch)`.
The `edges_to_sketch` argument only seeds the (empty) dict buckets, which the
total-map model already provides; it is kept to mirror the source signature. -/
def partition_contractions (dang : ℕ → List Edge) (path : List (ℕ × ℕ))
    (_edges_to_sketch : List Edge) : PartitionAcc :=
  path.foldl (partitionStep dang) ⟨fun _ => [], [], []⟩

/-- The operations the planner issues on the tensor network, in order. -/
inductive Op where
  | sketch (e : Edge) (m : ℕ)
  | contract (i j : ℕ)
  | tn_sketch_and_contract_s (i j m : ℕ)
  | tree_sketch_and_contract (i j m : ℕ)
deriving DecidableEq, Repr

/-- The body of the `_contract_and_sketch_kronecker_product` loop for a single
dict item `(e, D_e_i)`: a bare sketch for an empty group, otherwise the
operations of the minimal contraction plan (`None` entries become the sketch
of `e`).  `anchor e` is `x.get_node_index(e.node1)`. -/
def kroneckerSegment (nodes : ℕ → PNode) (anchor : Edge → ℕ) (e : Edge)
    (D_e_i : List (ℕ × ℕ)) (m : ℕ) : List Op :=
  if D_e_i.length = 0 then [Op.sketch e m]
  else
    (calculate_contraction_path_shapes nodes D_e_i (anchor e)).map
      (fun p => match p.2 with
        | none => Op.sketch e m
        | some j => Op.contract p.1 j)

/-- `_contract_and_sketch_kronecker_product(x, D, m)`: iterate the dict items
(keys in insertion order, i.e. the order of `edges_to_sketch`). -/
def contract_and_sketch_kronecker_product (nodes : ℕ → PNode) (anchor : Edge → ℕ)
    (edges_to_sketch : List Edge) (D : Edge → List (ℕ × ℕ)) (m : ℕ) : List Op :=
  edges_to_sketch.flatMap (fun e => kroneckerSegment nodes anchor e (D e) m)

/-- `_contract_and_sketch_tree_embedding(S, I_S, x, m)`: walk `I_S` in the
original path order; entries also in `S` get the joint sketch-and-contract
operation selected by `is_tn_embedding`, the rest plain contraction. -/
def contract_and_sketch_tree_embedding (S I_S : List (ℕ × ℕ))
    (is_tn_embedding : Bool) (m : ℕ) : List Op :=
  I_S.map (fun c =>
    if c ∈ S then
      if is_tn_embedding then Op.tn_sketch_and_contract_s c.1 c.2 m
      else Op.tree_sketch_and_contract c.1 c.2 m
    else Op.contract c.1 c.2)

/-- The full operation trace of `embed(x, contraction_path)` once `m` has been
computed: partition the path, drive the Kronecker pass over the dict `D`
(keys in `edges_to_sketch` order), then the tree-embedding pass over
`S`/`I_S`. -/
def embedTrace (dang : ℕ → List Edge) (nodes : ℕ → PNode) (anchor : Edge → ℕ)
    (edges_to_sketch : List Edge) (path : List (ℕ × ℕ)) (is_tn_embedding : Bool)
    (m : ℕ) : List Op :=
  let acc := partition_contractions dang path edges_to_sketch
  contract_and_sketch_kronecker_product nodes anchor edges_to_sketch acc.D m ++
    contract_and_sketch_tree_embedding acc.S acc.I_S is_tn_embedding m

/-- Modelled from the spec (the `TensorNetwork` collaborator is out of scope
for the planner's source): executing a trace against the set of dimensions
that still require sketching.  `x.sketch(edge=e, m)` applies a sketch to `e`,
after which `e` no longer requires sketching; the two joint sketch-and-contract
operations sketch the still-to-be-sketched dangling dimensions carried by
their two operands — abstracted here as a parameter `joint i j pending`
constrained (in the theorems) to sketch only dimensions still pending.
The result is the list of sketch applications, in order, one entry per
dimension sketched. -/
def sketchEvents (joint : ℕ → ℕ → List Edge → List Edge) :
    List Op → List Edge → List Edge
  | [], _ => []
  | Op.sketch e _ :: rest, pend => e :: sketchEvents joint rest (pend.erase e)
  | Op.contract _ _ :: rest, pend => sketchEvents joint rest pend
  | Op.tn_sketch_and_contract_s i j _ :: rest, pend =>
      joint i j pend ++
        sketchEvents joint rest (pend.filter (fun e => e ∉ joint i j pend))
  | Op.tree_sketch_and_contract i j _ :: rest, pend =>
      joint i j pend ++
        sketchEvents joint rest (pend.filter (fun e => e ∉ joint i j pend))

/-- The set of dimensions still requiring sketching after a trace runs
(companion of `sketchEvents`). -/
def pendingAfter (joint : ℕ → ℕ → List Edge → List Edge) :
    List Op → List Edge → List Edge
  | [], pend => pend
  | Op.sketch e _ :: rest, pend => pendingAfter joint rest (pend.erase e)
  | Op.contract _ _ :: rest, pend => pendingAfter joint rest pend
  | Op.tn_sketch_and_contract_s i j _ :: rest, pend =>
      pendingAfter joint rest (pend.filter (fun e => e ∉ joint i j pend))
  | Op.tree_sketch_and_contract i j _ :: rest, pend =>
      pendingAfter joint rest (pend.filter (fun e => e ∉ joint i j pend))

/-- The accuracy/configuration state stored by `EfficientGaussianEmb.__init__`:
the constructor body just assigns the four attributes (it performs no
validation of `eps` or `delta`). -/
structure EfficientGaussianEmb where
  eps : ℝ
  delta : ℝ
  m_scalar : ℝ
  is_tn_embedding : Bool

/-- Python `int(...)` on a float: truncation toward zero. -/
noncomputable def pyInt (x : ℝ) : ℤ := if 0 ≤ x then ⌊x⌋ else ⌈x⌉

/-- `calc_m(x)`: `m_theta = len(x.get_edges_to_sketch()) * np.log(1/delta) / eps**2`,
`m = int(m_theta * m_scalar)`, `return max(m, 1)`.  `nE` stands for
`len(x.get_edges_to_sketch())`.  (Python raises `ZeroDivisionError` when
`eps = 0`; statements therefore assume `eps ≠ 0`.) -/
noncomputable def EfficientGaussianEmb.calc_m (self : EfficientGaussianEmb)
    (nE : ℕ) : ℤ :=
  max (pyInt ((nE * Real.log (1 / self.delta) / self.eps ^ 2) * self.m_scalar)) 1

/-- Oracle for the cost model, following the spec's words: the true
post-contraction shape of a tensor whose dimensions are the association list
`cur` (edge, size) when contracted with `V` — shared dimensions are resolved
by *edge identity*: the dimensions of edges shared with `V` are removed, and
`V`'s dimensions on non-shared edges are appended. -/
def trueContractedShape (cur : List (Edge × ℕ)) (V : PNode) : List ℕ :=
  (cur.filter (fun p => p.1 ∉ V.edges)).map Prod.snd ++
    (((V.edges.zip V.shape).filter (fun p => p.1 ∉ cur.map Prod.fst)).map Prod.snd)

/-- Spec wording of the first partition branch: both operands carry at least
one to-be-sketched dangling dimension (`d_u > 0 and d_v > 0`). -/
def bothDangling (dang : ℕ → List Edge) (c : ℕ × ℕ) : Bool :=
  0 < (dang c.1).length && 0 < (dang c.2).length

/-- Spec wording of the `D`-bucket branches, including the else-chain context:
the entry lands in bucket `e` iff the first branch did not fire and either
`d_u == 1` with `e` being `u`'s single dangling edge, or (`d_u ≠ 1` and)
`d_v == 1` with `e` being `v`'s single dangling edge. -/
def dBucketPred (dang : ℕ → List Edge) (e : Edge) (c : ℕ × ℕ) : Bool :=
  !bothDangling dang c &&
    (((dang c.1).length == 1 && (dang c.1).headI == e) ||
      ((dang c.1).length != 1 && (dang c.2).length == 1 && (dang c.2).headI == e))

/-- Spec wording of the final else branch: the entry is a plain contraction
appended to `I_S` only. -/
def plainPred (dang : ℕ → List Edge) (c : ℕ × ℕ) : Bool :=
  !bothDangling dang c && (dang c.1).length != 1 && (dang c.2).length != 1

/-- Peak (maximum over the contraction steps) of the anchor tensor's simulated
sizes along an ordering — the quantity claim C2 speaks about. -/
def peakSize (U : PNode) (order : List PNode) : ℕ :=
  (sizesSeq U order).foldl max 0

/-- Recognizer for sketch operations in a trace. -/
def isSketchOp : Op → Bool
  | Op.sketch _ _ => true
  | _ => false

/-- Recognizer for plain contraction operations in a trace. -/
def isContractOp : Op → Bool
  | Op.contract _ _ => true
  | _ => false

/-- Concrete three-node network used to exercise the Kronecker scheduler:
anchor node `0` has shape `[2,3,5]` on edges `[10,11,12]` (edge `10` is the
to-be-sketched dangling edge), partner `1` shares edge `11` (size 3), partner
`2` shares edge `12` (size 5). -/
def cexNodes : ℕ → PNode := fun n =>
  if n = 0 then ⟨[10, 11, 12], [2, 3, 5]⟩
  else if n = 1 then ⟨[11], [3]⟩
  else if n = 2 then ⟨[12], [5]⟩
  else ⟨[], []⟩

section PermEnumeration

variable {α : Type*}

lemma selections_length {l : List α} {p : α × List α} (h : p ∈ selections l) :
    p.2.length + 1 = l.length := by
  induction l generalizing p with
  | nil => simp [selections] at h
  | cons x xs ih =>
    simp only [selections, List.mem_cons, List.mem_map] at h
    rcases h with h | ⟨q, hq, rfl⟩
    · subst h; simp
    · simpa using ih hq

lemma selections_perm {l : List α} {p : α × List α} (h : p ∈ selections l) :
    (p.1 :: p.2).Perm l := by
  induction l generalizing p with
  | nil => simp [selections] at h
  | cons x xs ih =>
    simp only [selections, List.mem_cons, List.mem_map] at h
    rcases h with h | ⟨q, hq, rfl⟩
    · subst h; exact List.Perm.refl _
    · exact (List.Perm.swap x q.1 q.2).trans ((ih hq).cons x)

lemma selections_complete [DecidableEq α] {l : List α} {x : α} (hx : x ∈ l) :
    ∃ ys, (x, ys) ∈ selections l ∧ ys.Perm (l.erase x) := by
  induction l with
  | nil => simp at hx
  | cons a as ih =>
    by_cases hax : x = a
    · subst hax
      exact ⟨as, by simp [selections], by simp [List.erase_cons_head]⟩
    · rcases List.mem_cons.1 hx with h | h
      · exact absurd h hax
      · rcases ih h with ⟨ys, hmem, hperm⟩
        refine ⟨a :: ys, ?_, ?_⟩
        · simp only [selections, List.mem_cons, List.mem_map]
          exact Or.inr ⟨(x, ys), hmem, rfl⟩
        · rw [List.erase_cons_tail]
          · exact hperm.cons a
          · simp only [ne_eq, beq_iff_eq]
            exact fun h' => hax h'.symm

lemma pyPermsAux_sound {n : ℕ} :
    ∀ {l p : List α}, l.length ≤ n → p ∈ pyPermsAux n l → p.Perm l := by
  induction n with
  | zero =>
    intro l p hl hp
    have hnil : l = [] := List.length_eq_zero.1 (Nat.le_zero.1 hl)
    subst hnil
    simp only [pyPermsAux, List.mem_singleton] at hp
    simp [hp]
  | succ n ih =>
    intro l p hl hp
    cases l with
    | nil =>
      simp only [pyPermsAux, List.mem_singleton] at hp
      simp [hp]
    | cons a as =>
      simp only [pyPermsAux, List.mem_flatMap, List.mem_map] at hp
      rcases hp with ⟨s, hs, q, hq, rfl⟩
      have hlen := selections_length hs
      have hlen' : s.2.length ≤ n := by
        simp only [List.length_cons] at hl hlen; omega
      exact ((ih hlen' hq).cons s.1).trans (selections_perm hs)

lemma pyPermsAux_complete [DecidableEq α] {n : ℕ} :
    ∀ {l p : List α}, l.length ≤ n → p.Perm l → p ∈ pyPermsAux n l := by
  induction n with
  | zero =>
    intro l p hl hperm
    have hnil : l = [] := List.length_eq_zero.1 (Nat.le_zero.1 hl)
    subst hnil
    rw [List.perm_nil.1 hperm]
    simp [pyPermsAux]
  | succ n ih =>
    intro l p hl hperm
    cases p with
    | nil =>
      have hnil : l = [] := List.perm_nil.1 hperm.symm
      subst hnil
      simp [pyPermsAux]
    | cons x t =>
      have hx : x ∈ l := hperm.mem_iff.1 (by simp)
      cases l with
      | nil => simp at hx
      | cons a as =>
        rcases selections_complete hx with ⟨ys, hmem, hys⟩
        have ht : t.Perm ys :=
          ((List.cons_perm_iff_perm_erase.1 hperm).2).trans hys.symm
        have hlen := selections_length hmem
        have hlen' : ys.length ≤ n := by
          simp only [List.length_cons] at hl hlen; omega
        have hrec := ih hlen' ht
        simp only [pyPermsAux, List.mem_flatMap, List.mem_map]
        exact ⟨(x, ys), hmem, t, hrec, rfl⟩

lemma pyPerms_sound {l p : List α} (hp : p ∈ pyPerms l) : p.Perm l :=
  pyPermsAux_sound le_rfl hp

lemma pyPerms_complete [DecidableEq α] {l p : List α} (hperm : p.Perm l) :
    p ∈ pyPerms l :=
  pyPermsAux_complete le_rfl hperm

lemma self_mem_pyPerms [DecidableEq α] (l : List α) : l ∈ pyPerms l :=
  pyPerms_complete (List.Perm.refl l)

lemma pyPerms_ne_nil [DecidableEq α] (l : List α) : pyPerms l ≠ [] :=
  fun h => by simpa [h] using self_mem_pyPerms l

end PermEnumeration

section ArgminFacts

lemma foldl_min_mem (x : ℕ) (xs : List ℕ) : xs.foldl min x ∈ x :: xs := by
  induction xs generalizing x with
  | nil => simp
  | cons y ys ih =>
    simp only [List.foldl_cons]
    rcases List.mem_cons.1 (ih (min x y)) with h | h
    · rcases min_choice x y with h' | h' <;> rw [h, h'] <;> simp
    · simp [h]

lemma foldl_min_le_seed (x : ℕ) (xs : List ℕ) : xs.foldl min x ≤ x := by
  induction xs generalizing x with
  | nil => exact le_rfl
  | cons z zs ih =>
    simp only [List.foldl_cons]
    exact le_trans (ih (min x z)) (min_le_left _ _)

lemma foldl_min_le {x y : ℕ} {xs : List ℕ} (hy : y ∈ x :: xs) :
    xs.foldl min x ≤ y := by
  induction xs generalizing x with
  | nil =>
    rcases List.mem_singleton.1 hy with rfl
    exact le_rfl
  | cons z zs ih =>
    simp only [List.foldl_cons]
    rcases List.mem_cons.1 hy with rfl | h
    · exact le_trans (foldl_min_le_seed _ _) (min_le_left _ _)
    · rcases List.mem_cons.1 h with rfl | h'
      · exact le_trans (foldl_min_le_seed _ _) (min_le_right _ _)
      · exact ih (List.mem_cons.2 (Or.inr h'))

lemma argminList_lt_length {l : List ℕ} (h : l ≠ []) : argminList l < l.length := by
  cases l with
  | nil => exact absurd rfl h
  | cons x xs =>
    exact List.indexOf_lt_length.2 (foldl_min_mem x xs)

lemma getD_argminList {x : ℕ} {xs : List ℕ} :
    (x :: xs).getD (argminList (x :: xs)) 0 = xs.foldl min x := by
  rw [List.getD_eq_getElem _ _ (argminList_lt_length (List.cons_ne_nil x xs))]
  exact List.getElem_indexOf (List.indexOf_lt_length.2 (foldl_min_mem x xs))

lemma argminList_getD_le {l : List ℕ} {y : ℕ} (hy : y ∈ l) :
    l.getD (argminList l) 0 ≤ y := by
  cases l with
  | nil => simp at hy
  | cons x xs => rw [getD_argminList]; exact foldl_min_le hy

end ArgminFacts

section MinimizeUFacts

lemma shapesSeq_length (Uep : List (Edge × ℕ)) (cur : List ℕ) (order : List PNode) :
    (shapesSeq Uep cur order).length = order.length := by
  induction order generalizing cur with
  | nil => rfl
  | cons V rest ih => simp [shapesSeq, ih]

lemma minimizeUGo_fst (Uep : List (Edge × ℕ)) (cur : List ℕ) (ms : ℕ) (mi : ℤ)
    (i : ℕ) (order : List PNode) :
    (minimizeUGo Uep cur ms mi i order).1 =
      ((shapesSeq Uep cur order).map List.prod).foldl min ms := by
  induction order generalizing cur ms mi i with
  | nil => rfl
  | cons V rest ih =>
    simp only [minimizeUGo, shapesSeq, List.map_cons, List.foldl_cons]
    rw [apply_ite (fun p : ℕ × ℤ => p.1)]
    simp only [ih]
    split_ifs with h
    · rw [Nat.min_eq_right h.le]
    · rw [Nat.min_eq_left (Nat.le_of_not_lt h)]

lemma snd_step_helper (s ms i : ℕ) (mi : ℤ) (sz : List ℕ) :
    (if s < ms
     then (if sz.foldl min s < s
           then (((i + 1) + sz.indexOf (sz.foldl min s) : ℕ) : ℤ)
           else ((i : ℕ) : ℤ))
     else (if sz.foldl min ms < ms
           then (((i + 1) + sz.indexOf (sz.foldl min ms) : ℕ) : ℤ)
           else mi)) =
    (if sz.foldl min (min ms s) < ms
     then ((i + (s :: sz).indexOf (sz.foldl min (min ms s)) : ℕ) : ℤ)
     else mi) := by
  by_cases h : s < ms
  · rw [if_pos h, Nat.min_eq_right h.le]
    have hMs : sz.foldl min s ≤ s := foldl_min_le_seed _ _
    have hMms : sz.foldl min s < ms := lt_of_le_of_lt hMs h
    rw [if_pos hMms]
    by_cases h2 : sz.foldl min s < s
    · rw [if_pos h2, List.indexOf_cons_ne _ (Nat.ne_of_gt h2), Nat.succ_eq_add_one]
      push_cast; ring
    · rw [if_neg h2]
      have hEq : sz.foldl min s = s := le_antisymm hMs (Nat.le_of_not_lt h2)
      rw [hEq, List.indexOf_cons_self]
      simp
  · rw [if_neg h, Nat.min_eq_left (Nat.le_of_not_lt h)]
    by_cases h2 : sz.foldl min ms < ms
    · rw [if_pos h2, if_pos h2]
      have hMs : sz.foldl min ms ≠ s := by
        intro hEq
        exact h (hEq ▸ h2)
      rw [List.indexOf_cons_ne _ (fun hc => hMs hc.symm), Nat.succ_eq_add_one]
      push_cast; ring
    · rw [if_neg h2, if_neg h2]

lemma minimizeUGo_snd (Uep : List (Edge × ℕ)) (cur : List ℕ) (ms : ℕ) (mi : ℤ)
    (i : ℕ) (order : List PNode) :
    (minimizeUGo Uep cur ms mi i order).2 =
      (if ((shapesSeq Uep cur order).map List.prod).foldl min ms < ms
       then ((i + ((shapesSeq Uep cur order).map List.prod).indexOf
               (((shapesSeq Uep cur order).map List.prod).foldl min ms) : ℕ) : ℤ)
       else mi) := by
  induction order generalizing cur ms mi i with
  | nil =>
    simp only [shapesSeq, List.map_nil, List.foldl_nil, minimizeUGo]
    rw [if_neg (lt_irrefl ms)]
  | cons V rest ih =>
    simp only [minimizeUGo, shapesSeq, List.map_cons, List.foldl_cons]
    rw [apply_ite (fun p : ℕ × ℤ => p.2)]
    simp only [ih]
    exact snd_step_helper _ _ _ _ _

lemma contraction_path_minimize_U_fst (U : PNode) (order : List PNode) :
    (contraction_path_minimize_U U order).1 = (sizesSeq U order).foldl min U.size :=
  minimizeUGo_fst _ _ _ _ _ _

lemma contraction_path_minimize_U_snd (U : PNode) (order : List PNode) :
    (contraction_path_minimize_U U order).2 =
      (if (sizesSeq U order).foldl min U.size < U.size
       then (((sizesSeq U order).indexOf ((sizesSeq U order).foldl min U.size) : ℕ) : ℤ)
       else -1) := by
  have h := minimizeUGo_snd (uEdgesOf U) U.shape U.size (-1) 0 order
  rw [contraction_path_minimize_U, h]
  simp [sizesSeq]

lemma sizesSeq_length (U : PNode) (order : List PNode) :
    (sizesSeq U order).length = order.length := by
  simp [sizesSeq, shapesSeq_length]

lemma contraction_path_minimize_U_snd_bounds (U : PNode) (order : List PNode) :
    -1 ≤ (contraction_path_minimize_U U order).2 ∧
      ((contraction_path_minimize_U U order).2 < (order.length : ℤ) ∨
        (contraction_path_minimize_U U order).2 = -1) := by
  rw [contraction_path_minimize_U_snd]
  split_ifs with h
  · refine ⟨le_trans (by norm_num) (Int.natCast_nonneg _), Or.inl ?_⟩
    have hmem : (sizesSeq U order).foldl min U.size ∈ sizesSeq U order := by
      rcases List.mem_cons.1 (foldl_min_mem U.size (sizesSeq U order)) with h' | h'
      · exact absurd h' (Nat.ne_of_lt h)
      · exact h'
    have hlt := List.indexOf_lt_length.2 hmem
    rw [sizesSeq_length] at hlt
    exact_mod_cast hlt
  · exact ⟨le_rfl, Or.inr rfl⟩

lemma sketch_insert_pos_le (U : PNode) (order : List PNode) :
    ((contraction_path_minimize_U U order).2 + 1).toNat ≤ order.length := by
  rcases contraction_path_minimize_U_snd_bounds U order with ⟨_, h2 | h⟩
  · omega
  · rw [h]; simp

end MinimizeUFacts

section ChosenFacts

variable (nodes : ℕ → PNode) (D_e_i : List (ℕ × ℕ)) (i : ℕ)

lemma argmin_uPossibleSizes_lt :
    argminList (uPossibleSizes nodes D_e_i i) < (pyPerms (jNodesOf D_e_i i)).length := by
  have h := argminList_lt_length (l := uPossibleSizes nodes D_e_i i) (by
    intro hnil
    have := pyPerms_ne_nil (jNodesOf D_e_i i)
    simp only [uPossibleSizes] at hnil
    exact this (List.map_eq_nil_iff.1 hnil))
  simpa [uPossibleSizes] using h

lemma chosenPermutation_eq_getElem :
    chosenPermutation nodes D_e_i i =
      (pyPerms (jNodesOf D_e_i i)).get
        ⟨argminList (uPossibleSizes nodes D_e_i i),
          argmin_uPossibleSizes_lt nodes D_e_i i⟩ := by
  rw [chosenPermutation, List.getD_eq_getElem, List.get_eq_getElem]

lemma chosenPermutation_mem :
    chosenPermutation nodes D_e_i i ∈ pyPerms (jNodesOf D_e_i i) := by
  rw [chosenPermutation_eq_getElem]
  exact List.get_mem _ _ _

lemma chosenPermutation_perm :
    (chosenPermutation nodes D_e_i i).Perm (jNodesOf D_e_i i) :=
  pyPerms_sound (chosenPermutation_mem nodes D_e_i i)

lemma chosen_minU_fst_eq :
    (contraction_path_minimize_U (nodes i)
        ((chosenPermutation nodes D_e_i i).map nodes)).1 =
      (uPossibleSizes nodes D_e_i i).getD
        (argminList (uPossibleSizes nodes D_e_i i)) 0 := by
  have hk := argmin_uPossibleSizes_lt nodes D_e_i i
  have hk' : argminList (uPossibleSizes nodes D_e_i i) <
      (uPossibleSizes nodes D_e_i i).length := by
    simpa [uPossibleSizes] using hk
  rw [List.getD_eq_getElem _ _ hk', chosenPermutation_eq_getElem]
  simp only [uPossibleSizes, List.get_eq_getElem, List.getElem_map]

lemma chosen_minU_fst_le {p : List ℕ} (hp : p ∈ pyPerms (jNodesOf D_e_i i)) :
    (contraction_path_minimize_U (nodes i)
        ((chosenPermutation nodes D_e_i i).map nodes)).1 ≤
      (contraction_path_minimize_U (nodes i) (p.map nodes)).1 := by
  rw [chosen_minU_fst_eq]
  exact argminList_getD_le (by
    simp only [uPossibleSizes, List.mem_map]
    exact ⟨p, hp, rfl⟩)

lemma sketchIdxOf_eq_chosen :
    sketchIdxOf nodes D_e_i i =
      (contraction_path_minimize_U (nodes i)
        ((chosenPermutation nodes D_e_i i).map nodes)).2 := by
  have hk := argmin_uPossibleSizes_lt nodes D_e_i i
  have hk' : argminList (uPossibleSizes nodes D_e_i i) <
      ((pyPerms (jNodesOf D_e_i i)).map
        (fun p => (contraction_path_minimize_U (nodes i) (p.map nodes)).2)).length := by
    simpa using hk
  rw [sketchIdxOf, List.getD_eq_getElem _ _ hk', chosenPermutation_eq_getElem]
  simp only [List.get_eq_getElem, List.getElem_map]

end ChosenFacts

section PlanStructure

variable {α : Type*} {β : Type*}

lemma insertIdx_eq_take_cons_drop {k : ℕ} {a : α} :
    ∀ {l : List α}, k ≤ l.length → l.insertIdx k a = l.take k ++ a :: l.drop k := by
  induction k with
  | zero => intro l _; simp [List.insertIdx_zero]
  | succ k ih =>
    intro l hl
    cases l with
    | nil => simp at hl
    | cons x xs =>
      simp only [List.insertIdx_succ_cons, List.take_succ_cons, List.drop_succ_cons,
        List.cons_append]
      rw [ih (by simpa using hl)]

lemma zip_replicate_eq_map (a : α) (l : List β) :
    (List.replicate l.length a).zip l = l.map (fun x => (a, x)) := by
  induction l with
  | nil => rfl
  | cons x xs ih => simp [List.replicate_succ, ih]

lemma chosenPermutation_length (nodes : ℕ → PNode) (D_e_i : List (ℕ × ℕ)) (i : ℕ) :
    (chosenPermutation nodes D_e_i i).length = D_e_i.length := by
  rw [(chosenPermutation_perm nodes D_e_i i).length_eq, jNodesOf, List.length_map]

lemma sketchPos_le_chosen_length (nodes : ℕ → PNode) (D_e_i : List (ℕ × ℕ)) (i : ℕ) :
    (sketchIdxOf nodes D_e_i i + 1).toNat ≤ (chosenPermutation nodes D_e_i i).length := by
  rw [sketchIdxOf_eq_chosen]
  have h := sketch_insert_pos_le (nodes i) ((chosenPermutation nodes D_e_i i).map nodes)
  simpa using h

/-- The emitted plan, decomposed: the contractions of the selected ordering in
order, with the single sketch marker `(i, none)` at position
`sketch_index + 1`. -/
lemma calculate_contraction_path_shapes_eq (nodes : ℕ → PNode)
    (D_e_i : List (ℕ × ℕ)) (i : ℕ) :
    calculate_contraction_path_shapes nodes D_e_i i =
      ((chosenPermutation nodes D_e_i i).take
          (sketchIdxOf nodes D_e_i i + 1).toNat).map (fun j => (i, some j)) ++
        (i, (none : Option ℕ)) ::
          ((chosenPermutation nodes D_e_i i).drop
            (sketchIdxOf nodes D_e_i i + 1).toNat).map (fun j => (i, some j)) := by
  have hle : (sketchIdxOf nodes D_e_i i + 1).toNat ≤
      ((chosenPermutation nodes D_e_i i).map some).length := by
    rw [List.length_map]; exact sketchPos_le_chosen_length nodes D_e_i i
  rw [calculate_contraction_path_shapes]
  simp only [zip_replicate_eq_map]
  rw [insertIdx_eq_take_cons_drop hle]
  simp [List.map_take, List.map_drop, Function.comp_def]

end PlanStructure

section TraceSemantics

variable (joint : ℕ → ℕ → List Edge → List Edge)

lemma sketchEvents_append (t₁ t₂ : List Op) (pend : List Edge) :
    sketchEvents joint (t₁ ++ t₂) pend =
      sketchEvents joint t₁ pend ++
        sketchEvents joint t₂ (pendingAfter joint t₁ pend) := by
  induction t₁ generalizing pend with
  | nil => rfl
  | cons op rest ih =>
    cases op <;> simp [sketchEvents, pendingAfter, ih]

lemma pendingAfter_append (t₁ t₂ : List Op) (pend : List Edge) :
    pendingAfter joint (t₁ ++ t₂) pend =
      pendingAfter joint t₂ (pendingAfter joint t₁ pend) := by
  induction t₁ generalizing pend with
  | nil => rfl
  | cons op rest ih =>
    cases op <;> simp [pendingAfter, ih]

/-- A trace of bare contractions sketches nothing and leaves the pending set
unchanged. -/
lemma sketchEvents_contracts {t : List Op}
    (h : ∀ op ∈ t, ∃ a b, op = Op.contract a b) (pend : List Edge) :
    sketchEvents joint t pend = [] ∧ pendingAfter joint t pend = pend := by
  induction t generalizing pend with
  | nil => exact ⟨rfl, rfl⟩
  | cons op rest ih =>
    rcases h op (List.mem_cons_self _ _) with ⟨a, b, rfl⟩
    exact ih (fun o ho => h o (List.mem_cons.2 (Or.inr ho))) pend

/-- Every operation the Kronecker pass emits for one dict item sketches the
item's edge exactly once: the empty-group branch sketches it directly, the
planned branch follows the plan whose single `none` marker is the sketch. -/
lemma kroneckerSegment_events (nodes : ℕ → PNode) (anchor : Edge → ℕ) (e : Edge)
    (D_e_i : List (ℕ × ℕ)) (m : ℕ) (pend : List Edge) :
    sketchEvents joint (kroneckerSegment nodes anchor e D_e_i m) pend = [e] ∧
      pendingAfter joint (kroneckerSegment nodes anchor e D_e_i m) pend =
        pend.erase e := by
  rw [kroneckerSegment]
  split_ifs with h
  · simp [sketchEvents, pendingAfter]
  · rw [calculate_contraction_path_shapes_eq]
    rw [List.map_append, List.map_cons]
    have hpre : ∀ op ∈ (((chosenPermutation nodes D_e_i (anchor e)).take
        (sketchIdxOf nodes D_e_i (anchor e) + 1).toNat).map
          (fun j => ((anchor e), some j))).map
            (fun p : ℕ × Option ℕ => match p.2 with
              | none => Op.sketch e m
              | some j => Op.contract p.1 j),
        ∃ a b, op = Op.contract a b := by
      intro op hop
      simp only [List.map_map, List.mem_map] at hop
      rcases hop with ⟨j, _, rfl⟩
      exact ⟨anchor e, j, rfl⟩
    have hpost : ∀ op ∈ (((chosenPermutation nodes D_e_i (anchor e)).drop
        (sketchIdxOf nodes D_e_i (anchor e) + 1).toNat).map
          (fun j => ((anchor e), some j))).map
            (fun p : ℕ × Option ℕ => match p.2 with
              | none => Op.sketch e m
              | some j => Op.contract p.1 j),
        ∃ a b, op = Op.contract a b := by
      intro op hop
      simp only [List.map_map, List.mem_map] at hop
      rcases hop with ⟨j, _, rfl⟩
      exact ⟨anchor e, j, rfl⟩
    rw [sketchEvents_append, pendingAfter_append]
    rw [(sketchEvents_contracts joint hpre pend).1,
      (sketchEvents_contracts joint hpre pend).2]
    simp only [sketchEvents, pendingAfter, List.nil_append]
    rw [(sketchEvents_contracts joint hpost (pend.erase e)).1,
      (sketchEvents_contracts joint hpost (pend.erase e)).2]
    exact ⟨rfl, rfl⟩

/-- The Kronecker pass over dict items `edges` sketches exactly the keys, in
key order, and erases each of them from the pending set. -/
lemma kronecker_pass_events (nodes : ℕ → PNode) (anchor : Edge → ℕ)
    (edges : List Edge) (D : Edge → List (ℕ × ℕ)) (m : ℕ) (pend : List Edge) :
    sketchEvents joint
        (contract_and_sketch_kronecker_product nodes anchor edges D m) pend =
        edges ∧
      pendingAfter joint
        (contract_and_sketch_kronecker_product nodes anchor edges D m) pend =
        edges.foldl (fun acc e => acc.erase e) pend := by
  induction edges generalizing pend with
  | nil => exact ⟨rfl, rfl⟩
  | cons e rest ih =>
    rw [contract_and_sketch_kronecker_product, List.flatMap_cons]
    rw [sketchEvents_append, pendingAfter_append]
    have hseg := kroneckerSegment_events joint nodes anchor e (D e) m pend
    rw [hseg.1, hseg.2]
    have hrest := ih (pend.erase e)
    rw [contract_and_sketch_kronecker_product] at hrest
    rw [hrest.1, hrest.2]
    exact ⟨rfl, rfl⟩

/-- Erasing, in order, every element of a list from that same list leaves
nothing pending. -/
lemma foldl_erase_self (l : List Edge) :
    l.foldl (fun acc e => acc.erase e) l = [] := by
  have h : ∀ l' : List Edge, l'.foldl (fun acc e => acc.erase e) l' = [] := by
    intro l'
    induction l' with
    | nil => rfl
    | cons e rest ih => simpa [List.erase_cons_head] using ih
  exact h l

/-- With nothing pending, the tree-embedding pass sketches nothing: its plain
contractions sketch nothing, and (per the spec contract) the joint
sketch-and-contract operations only sketch still-pending dimensions. -/
lemma tree_pass_no_events
    (hjoint : ∀ a b pend e, e ∈ joint a b pend → e ∈ pend)
    (S I_S : List (ℕ × ℕ)) (is_tn_embedding : Bool) (m : ℕ) :
    sketchEvents joint
      (contract_and_sketch_tree_embedding S I_S is_tn_embedding m) [] = [] := by
  have hempty : ∀ a b, joint a b [] = [] := by
    intro a b
    cases hj : joint a b [] with
    | nil => rfl
    | cons x xs =>
      have : x ∈ joint a b [] := by rw [hj]; exact List.mem_cons_self _ _
      exact absurd (hjoint a b [] x this) (List.not_mem_nil x)
  induction I_S with
  | nil => rfl
  | cons c rest ih =>
    rw [contract_and_sketch_tree_embedding, List.map_cons]
    rw [contract_and_sketch_tree_embedding] at ih
    by_cases hc : c ∈ S
    · rw [if_pos hc]
      cases is_tn_embedding
      · simp only [Bool.false_eq_true, if_neg (by simp : ¬False)]
        simp only [sketchEvents, hempty, List.filter_nil, List.nil_append]
        exact ih
      · simp only [if_pos rfl]
        simp only [sketchEvents, hempty, List.filter_nil, List.nil_append]
        exact ih
    · rw [if_neg hc]
      simp only [sketchEvents]
      exact ih

end TraceSemantics

section PartitionFacts

variable (dang : ℕ → List Edge)

lemma bothDangling_iff (c : ℕ × ℕ) :
    bothDangling dang c = true ↔
      ((dang c.1).length ≠ 0 ∧ (dang c.2).length ≠ 0) := by
  simp [bothDangling, Nat.pos_iff_ne_zero]

lemma partition_case_hv {dang : ℕ → List Edge} {c : ℕ × ℕ}
    (h1 : ¬((dang c.1).length ≠ 0 ∧ (dang c.2).length ≠ 0))
    (h2 : (dang c.1).length = 1) : dang c.2 = [] := by
  rcases not_and_or.1 h1 with h | h
  · exact absurd (by omega : (dang c.1).length ≠ 0) h
  · exact List.length_eq_zero.1 (not_ne_iff.1 h)

lemma partition_case_hu {dang : ℕ → List Edge} {c : ℕ × ℕ}
    (h1 : ¬((dang c.1).length ≠ 0 ∧ (dang c.2).length ≠ 0))
    (h3 : (dang c.2).length = 1) : dang c.1 = [] := by
  rcases not_and_or.1 h1 with h | h
  · exact List.length_eq_zero.1 (not_ne_iff.1 h)
  · exact absurd (by omega : (dang c.2).length ≠ 0) h

lemma partition_not_both {dang : ℕ → List Edge} {c : ℕ × ℕ}
    (h1 : ¬((dang c.1).length ≠ 0 ∧ (dang c.2).length ≠ 0)) :
    ¬(¬dang c.1 = [] ∧ ¬dang c.2 = []) := by
  rcases not_and_or.1 h1 with h | h
  · exact fun hc => hc.1 (List.length_eq_zero.1 (not_ne_iff.1 h))
  · exact fun hc => hc.2 (List.length_eq_zero.1 (not_ne_iff.1 h))

lemma partitionStep_S (acc : PartitionAcc) (c : ℕ × ℕ) :
    (partitionStep dang acc c).S =
      acc.S ++ if bothDangling dang c then [c] else [] := by
  by_cases h1 : (dang c.1).length ≠ 0 ∧ (dang c.2).length ≠ 0
  · have hb : bothDangling dang c = true := (bothDangling_iff dang c).2 h1
    simp [partitionStep, h1, hb]
  · have hb : bothDangling dang c = false := by
      rw [← Bool.not_eq_true]
      exact fun h => h1 ((bothDangling_iff dang c).1 h)
    have hnb := partition_not_both h1
    by_cases h2 : (dang c.1).length = 1
    · simp [partitionStep, h1, h2, hb, hnb, partition_case_hv h1 h2]
    · by_cases h3 : (dang c.2).length = 1
      · simp [partitionStep, h1, h2, h3, hb, hnb, partition_case_hu h1 h3]
      · simp [partitionStep, h1, h2, h3, hb, hnb]

lemma partitionStep_I_S (acc : PartitionAcc) (c : ℕ × ℕ) :
    (partitionStep dang acc c).I_S =
      acc.I_S ++ if bothDangling dang c || plainPred dang c then [c] else [] := by
  by_cases h1 : (dang c.1).length ≠ 0 ∧ (dang c.2).length ≠ 0
  · have hb : bothDangling dang c = true := (bothDangling_iff dang c).2 h1
    simp [partitionStep, h1, hb]
  · have hb : bothDangling dang c = false := by
      rw [← Bool.not_eq_true]
      exact fun h => h1 ((bothDangling_iff dang c).1 h)
    have hnb := partition_not_both h1
    by_cases h2 : (dang c.1).length = 1
    · simp [partitionStep, plainPred, h1, h2, hb, hnb, partition_case_hv h1 h2]
    · by_cases h3 : (dang c.2).length = 1
      · simp [partitionStep, plainPred, h1, h2, h3, hb, hnb, partition_case_hu h1 h3]
      · simp [partitionStep, plainPred, h1, h2, h3, hb, hnb]

lemma partitionStep_D (acc : PartitionAcc) (c : ℕ × ℕ) (e : Edge) :
    (partitionStep dang acc c).D e =
      acc.D e ++ if dBucketPred dang e c then [c] else [] := by
  by_cases h1 : (dang c.1).length ≠ 0 ∧ (dang c.2).length ≠ 0
  · have hb : bothDangling dang c = true := (bothDangling_iff dang c).2 h1
    simp [partitionStep, dBucketPred, h1, hb]
  · have hb : bothDangling dang c = false := by
      rw [← Bool.not_eq_true]
      exact fun h => h1 ((bothDangling_iff dang c).1 h)
    have hnb := partition_not_both h1
    by_cases h2 : (dang c.1).length = 1
    · have hv := partition_case_hv h1 h2
      by_cases he : e = (dang c.1).headI
      · simp [partitionStep, dBucketPred, h1, h2, hb, he, hv]
      · have he2 : ¬(dang c.1).headI = e := fun h => he h.symm
        simp [partitionStep, dBucketPred, h1, h2, hb, he, he2, hv]
    · by_cases h3 : (dang c.2).length = 1
      · have hu := partition_case_hu h1 h3
        by_cases he : e = (dang c.2).headI
        · simp [partitionStep, dBucketPred, h1, h2, h3, hb, he, hu]
        · have he2 : ¬(dang c.2).headI = e := fun h => he h.symm
          simp [partitionStep, dBucketPred, h1, h2, h3, hb, he, he2, hu]
      · simp [partitionStep, dBucketPred, h1, h2, h3, hb, hnb]

lemma partition_foldl_S (path : List (ℕ × ℕ)) (acc : PartitionAcc) :
    (path.foldl (partitionStep dang) acc).S =
      acc.S ++ path.filter (fun c => bothDangling dang c) := by
  induction path generalizing acc with
  | nil => simp
  | cons c rest ih =>
    rw [List.foldl_cons, ih, partitionStep_S, List.filter_cons]
    split_ifs with h <;> simp

lemma partition_foldl_I_S (path : List (ℕ × ℕ)) (acc : PartitionAcc) :
    (path.foldl (partitionStep dang) acc).I_S =
      acc.I_S ++ path.filter (fun c => bothDangling dang c || plainPred dang c) := by
  induction path generalizing acc with
  | nil => simp
  | cons c rest ih =>
    rw [List.foldl_cons, ih, partitionStep_I_S, List.filter_cons]
    split_ifs with h <;> simp

lemma partition_foldl_D (path : List (ℕ × ℕ)) (acc : PartitionAcc) (e : Edge) :
    (path.foldl (partitionStep dang) acc).D e =
      acc.D e ++ path.filter (fun c => dBucketPred dang e c) := by
  induction path generalizing acc with
  | nil => simp
  | cons c rest ih =>
    rw [List.foldl_cons, ih, partitionStep_D, List.filter_cons]
    split_ifs with h <;> simp

end PartitionFacts

section CountingHelpers

lemma count_filter_eq {α : Type*} [BEq α] [LawfulBEq α] (p : α → Bool)
    (l : List α) (a : α) :
    (l.filter p).count a = if p a = true then l.count a else 0 := by
  by_cases hp : p a = true
  · rw [if_pos hp, List.count_filter hp]
  · rw [if_neg hp, List.count_eq_zero.2]
    intro hmem
    exact hp (List.of_mem_filter hmem)

lemma sum_map_ite_zero {l : List Edge} {e₀ : Edge} (h : e₀ ∉ l) (cnt : ℕ) :
    (l.map (fun e => if e = e₀ then cnt else 0)).sum = 0 := by
  induction l with
  | nil => rfl
  | cons a rest ih =>
    have ha : a ≠ e₀ := fun hc => h (hc ▸ List.mem_cons_self a rest)
    simp only [List.map_cons, List.sum_cons, if_neg ha, Nat.zero_add]
    exact ih (fun hc => h (List.mem_cons.2 (Or.inr hc)))

lemma sum_map_ite_unique {l : List Edge} {e₀ : Edge} (hnd : l.Nodup)
    (he : e₀ ∈ l) (cnt : ℕ) :
    (l.map (fun e => if e = e₀ then cnt else 0)).sum = cnt := by
  induction l with
  | nil => simp at he
  | cons a rest ih =>
    rcases List.mem_cons.1 he with rfl | hmem
    · simp only [List.map_cons, List.sum_cons, if_pos rfl]
      rw [sum_map_ite_zero (List.nodup_cons.1 hnd).1 cnt]
      simp
    · have ha : a ≠ e₀ := fun hc => (List.nodup_cons.1 hnd).1 (hc ▸ hmem)
      simp only [List.map_cons, List.sum_cons, if_neg ha, Nat.zero_add]
      exact ih (List.nodup_cons.1 hnd).2 hmem

end CountingHelpers

/-- C6: every contraction-path entry is classified by exactly the source's
branch rule, in branch order: entries with both operands carrying
to-be-sketched dangling dimensions go to `S` and `I_S`; otherwise an operand
with exactly one dangling dimension sends the entry to that edge's `D` bucket
(the `u` side checked before the `v` side); otherwise the entry goes to `I_S`
only.  Stated as order-preserving filter characterisations of the three
partition components by the branch predicates. -/
theorem C6_partition_branch_rule (dang : ℕ → List Edge) (path : List (ℕ × ℕ))
    (edges_to_sketch : List Edge) :
    (partition_contractions dang path edges_to_sketch).S =
        path.filter (fun c => bothDangling dang c) ∧
      (partition_contractions dang path edges_to_sketch).I_S =
        path.filter (fun c => bothDangling dang c || plainPred dang c) ∧
      ∀ e : Edge, (partition_contractions dang path edges_to_sketch).D e =
        path.filter (fun c => dBucketPred dang e c) := by
  refine ⟨?_, ?_, fun e => ?_⟩
  · rw [partition_contractions, partition_foldl_S]; rfl
  · rw [partition_contractions, partition_foldl_I_S]; rfl
  · rw [partition_contractions, partition_foldl_D]; rfl


/-- C7: partition invariants — every `D[e]` entry has exactly one operand
carrying `e` as its sole pending sketch dimension, `S ⊆ I_S`, and (counting
multiplicities) every original path entry lands in exactly one of
{some `D[e]`, `I_S`}.  The hypotheses record the source's implicit dict
contract: the key set `edges` is duplicate-free and every dangling edge
reported by a node is a key (otherwise Python raises `KeyError`). -/
theorem C7_partition_invariants (dang : ℕ → List Edge) (path : List (ℕ × ℕ))
    (edges : List Edge) (hnd : edges.Nodup)
    (hsub : ∀ n e, e ∈ dang n → e ∈ edges) :
    (∀ e c, c ∈ (partition_contractions dang path edges).D e →
        ((dang c.1 = [e] ∧ dang c.2 ≠ [e]) ∨
          (dang c.2 = [e] ∧ dang c.1 ≠ [e]))) ∧
      (∀ c, c ∈ (partition_contractions dang path edges).S →
        c ∈ (partition_contractions dang path edges).I_S) ∧
      (∀ c, (partition_contractions dang path edges).I_S.count c +
          (edges.map
            (fun e => ((partition_contractions dang path edges).D e).count c)).sum =
        path.count c) := by
  have hS : (partition_contractions dang path edges).S =
      path.filter (fun c => bothDangling dang c) := by
    rw [partition_contractions, partition_foldl_S]; rfl
  have hIS : (partition_contractions dang path edges).I_S =
      path.filter (fun c => bothDangling dang c || plainPred dang c) := by
    rw [partition_contractions, partition_foldl_I_S]; rfl
  have hD : ∀ e, (partition_contractions dang path edges).D e =
      path.filter (fun c => dBucketPred dang e c) := by
    intro e; rw [partition_contractions, partition_foldl_D]; rfl
  refine ⟨?_, ?_, ?_⟩
  · intro e c hc
    rw [hD] at hc
    have hpred := List.of_mem_filter hc
    simp only [dBucketPred, Bool.and_eq_true, Bool.or_eq_true, beq_iff_eq,
      bne_iff_ne, ne_eq, Bool.not_eq_true'] at hpred
    obtain ⟨hboth, hcases⟩ := hpred
    have hboth' : ¬((dang c.1).length ≠ 0 ∧ (dang c.2).length ≠ 0) :=
      fun hcon => by rw [(bothDangling_iff dang c).2 hcon] at hboth; cases hboth
    rcases hcases with ⟨hlen, hhead⟩ | ⟨⟨_, hlen⟩, hhead⟩
    · left
      have hv0 : dang c.2 = [] := partition_case_hv hboth' hlen
      obtain ⟨a, ha⟩ := List.length_eq_one.1 hlen
      rw [ha] at hhead
      simp only [List.headI_cons] at hhead
      subst hhead
      exact ⟨ha, by simp [hv0]⟩
    · right
      have hu0 : dang c.1 = [] := partition_case_hu hboth' hlen
      obtain ⟨a, ha⟩ := List.length_eq_one.1 hlen
      rw [ha] at hhead
      simp only [List.headI_cons] at hhead
      subst hhead
      exact ⟨ha, by simp [hu0]⟩
  · intro c hcS
    rw [hS] at hcS
    rw [hIS]
    refine List.mem_filter.2 ⟨List.mem_of_mem_filter hcS, ?_⟩
    rw [Bool.or_eq_true]
    exact Or.inl (List.of_mem_filter hcS)
  · intro c
    rw [hIS]
    simp only [hD, count_filter_eq]
    by_cases hboth : bothDangling dang c = true
    · rw [if_pos (by rw [Bool.or_eq_true]; exact Or.inl hboth)]
      have hz : ∀ e : Edge, dBucketPred dang e c = false := fun e => by
        simp [dBucketPred, hboth]
      simp [hz]
    · have hbothf : bothDangling dang c = false := by
        rw [← Bool.not_eq_true]; exact hboth
      have hboth' : ¬((dang c.1).length ≠ 0 ∧ (dang c.2).length ≠ 0) :=
        fun hcon => hboth ((bothDangling_iff dang c).2 hcon)
      by_cases h2 : (dang c.1).length = 1
      · have hplain : plainPred dang c = false := by
          simp [plainPred, h2]
        rw [if_neg (by simp [hboth, hplain])]
        have he₀ : (dang c.1).headI ∈ edges := by
          obtain ⟨a, ha⟩ := List.length_eq_one.1 h2
          exact hsub c.1 _ (by rw [ha]; simp)
        have hmap : ∀ e ∈ edges,
            (if dBucketPred dang e c = true then path.count c else 0) =
              (if e = (dang c.1).headI then path.count c else 0) := by
          intro e _
          by_cases he : e = (dang c.1).headI
          · rw [if_pos he, if_pos]
            simp [dBucketPred, hbothf, h2, he]
          · rw [if_neg he, if_neg]
            simp only [dBucketPred, hbothf, Bool.not_false, Bool.true_and,
              Bool.or_eq_true, Bool.and_eq_true, beq_iff_eq, bne_iff_ne, ne_eq]
            rintro (⟨_, hh⟩ | ⟨⟨hne, _⟩, _⟩)
            · exact he hh.symm
            · exact hne h2
        rw [List.map_congr_left hmap, sum_map_ite_unique hnd he₀]
        simp
      · by_cases h3 : (dang c.2).length = 1
        · have hplain : plainPred dang c = false := by
            simp [plainPred, h3]
          rw [if_neg (by simp [hboth, hplain])]
          have he₀ : (dang c.2).headI ∈ edges := by
            obtain ⟨a, ha⟩ := List.length_eq_one.1 h3
            exact hsub c.2 _ (by rw [ha]; simp)
          have hmap : ∀ e ∈ edges,
              (if dBucketPred dang e c = true then path.count c else 0) =
                (if e = (dang c.2).headI then path.count c else 0) := by
            intro e _
            by_cases he : e = (dang c.2).headI
            · rw [if_pos he, if_pos]
              simp [dBucketPred, hbothf, h2, h3, he]
            · rw [if_neg he, if_neg]
              simp only [dBucketPred, hbothf, Bool.not_false, Bool.true_and,
                Bool.or_eq_true, Bool.and_eq_true, beq_iff_eq, bne_iff_ne, ne_eq]
              rintro (⟨hl, _⟩ | ⟨⟨_, _⟩, hh⟩)
              · exact h2 hl
              · exact he hh.symm
          rw [List.map_congr_left hmap, sum_map_ite_unique hnd he₀]
          simp
        · have hplain : plainPred dang c = true := by
            simp [plainPred, hbothf, h2, h3]
          rw [if_pos (by rw [Bool.or_eq_true]; exact Or.inr hplain)]
          have hz : ∀ e : Edge, dBucketPred dang e c = false := fun e => by
            simp [dBucketPred, hbothf, h2, h3]
          simp [hz]

/-- Witness for C7 at a concrete instance: node `0` carries the single
dangling edge `5`, node `1` carries none; the hypotheses hold and the count
identity is obtained from the theorem. -/
theorem C7_partition_invariants_witness :
    ([5] : List Edge).Nodup ∧
      (∀ c, ((partition_contractions (fun n => if n = 0 then [5] else [])
          [(0, 1)] [5]).I_S).count c +
            (([5] : List Edge).map
              (fun e => ((partition_contractions (fun n => if n = 0 then [5] else [])
                [(0, 1)] [5]).D e).count c)).sum =
        ([(0, 1)] : List (ℕ × ℕ)).count c) := by
  refine ⟨by decide, ?_⟩
  exact (C7_partition_invariants (fun n => if n = 0 then [5] else [])
    [(0, 1)] [5] (by decide)
    (fun n e he => by
      by_cases hn : n = 0 <;> simp [hn] at he
      simp [he])).2.2

/-- Counterexample to C4: constructing with `eps = -1 ≤ 0` and `delta = 2`
outside `(0,1)` is not rejected — `__init__` performs no validation, stores
the parameters as given, and the object is usable (`calc_m` runs and returns
the clamped value `1`). -/
theorem C4_claim_counterexample :
    ((-1 : ℝ) ≤ 0 ∧ ¬((0 : ℝ) < 2 ∧ (2 : ℝ) < 1)) ∧
      (EfficientGaussianEmb.mk (-1) 2 1 false).eps = -1 ∧
      (EfficientGaussianEmb.mk (-1) 2 1 false).delta = 2 ∧
      (EfficientGaussianEmb.mk (-1) 2 1 false).calc_m 3 = 1 := by
  refine ⟨⟨by norm_num, by norm_num⟩, rfl, rfl, ?_⟩
  show max (pyInt (((3 : ℕ) * Real.log (1 / 2) / (-1 : ℝ) ^ 2) * 1)) 1 = 1
  have hlog : Real.log (1 / 2) < 0 :=
    Real.log_neg (by norm_num) (by norm_num)
  have hx : ((3 : ℕ) * Real.log (1 / 2) / (-1 : ℝ) ^ 2) * 1 < 0 := by
    rw [neg_one_sq]
    push_cast
    nlinarith
  rw [pyInt, if_neg (not_le.2 hx)]
  have hceil : ⌈((3 : ℕ) * Real.log (1 / 2) / (-1 : ℝ) ^ 2) * 1⌉ ≤ 0 :=
    Int.ceil_le.2 (by push_cast; exact hx.le)
  exact max_eq_right (hceil.trans (by norm_num))

/-- C4 amended: the constructor rejects nothing — for every `eps`, `delta`,
`m_scalar` and flag (valid or not) it stores the parameters unchecked and
yields an object. -/
theorem C4_constructor_stores_unchecked (eps delta m_scalar : ℝ)
    (is_tn_embedding : Bool) :
    (EfficientGaussianEmb.mk eps delta m_scalar is_tn_embedding).eps = eps ∧
      (EfficientGaussianEmb.mk eps delta m_scalar is_tn_embedding).delta = delta ∧
      (EfficientGaussianEmb.mk eps delta m_scalar is_tn_embedding).m_scalar =
        m_scalar ∧
      (EfficientGaussianEmb.mk eps delta m_scalar is_tn_embedding).is_tn_embedding =
        is_tn_embedding :=
  ⟨rfl, rfl, rfl, rfl⟩

/-- C5: `calc_m` returns `max(1, floor(m_scalar * N_E * ln(1/delta) / eps^2))`
and in particular is always an integer `≥ 1` (values below one are clamped to
one).  Python `int()` truncates toward zero, but under `max(·, 1)` truncation
and floor agree; `eps ≠ 0` reflects that Python would raise
`ZeroDivisionError` on `eps = 0`. -/
theorem C5_calc_m_formula (eps delta m_scalar : ℝ) (is_tn_embedding : Bool)
    (nE : ℕ) (_heps : eps ≠ 0) :
    (EfficientGaussianEmb.mk eps delta m_scalar is_tn_embedding).calc_m nE =
        max 1 ⌊m_scalar * nE * Real.log (1 / delta) / eps ^ 2⌋ ∧
      1 ≤ (EfficientGaussianEmb.mk eps delta m_scalar is_tn_embedding).calc_m nE := by
  have hxy : ((nE : ℝ) * Real.log (1 / delta) / eps ^ 2) * m_scalar =
      m_scalar * nE * Real.log (1 / delta) / eps ^ 2 := by ring
  constructor
  · show max (pyInt (((nE : ℝ) * Real.log (1 / delta) / eps ^ 2) * m_scalar)) 1 = _
    rw [pyInt]
    split_ifs with hx
    · rw [max_comm, ← hxy]
    · have hx' : ((nE : ℝ) * Real.log (1 / delta) / eps ^ 2) * m_scalar < 0 :=
        not_le.1 hx
      have hceil : ⌈((nE : ℝ) * Real.log (1 / delta) / eps ^ 2) * m_scalar⌉ ≤ 0 :=
        Int.ceil_le.2 (by push_cast; exact hx'.le)
      have hfloor : ⌊m_scalar * nE * Real.log (1 / delta) / eps ^ 2⌋ ≤ 0 := by
        rw [← hxy]
        exact le_trans (Int.floor_le_ceil _) hceil
      rw [max_eq_right (hceil.trans (by norm_num)),
        max_eq_left (hfloor.trans (by norm_num))]
  · exact le_max_right _ 1

/-- Witness for C5 at `eps = 1`, `delta = 1/2`, `m_scalar = 1`, `N_E = 0`:
the hypothesis `eps ≠ 0` holds and the formula evaluates to `1`. -/
theorem C5_calc_m_formula_witness :
    (1 : ℝ) ≠ 0 ∧
      (EfficientGaussianEmb.mk 1 (1 / 2) 1 false).calc_m 0 = 1 := by
  refine ⟨one_ne_zero, ?_⟩
  have h := (C5_calc_m_formula 1 (1 / 2) 1 false 0 one_ne_zero).1
  rw [h]
  norm_num

/-- C3 (code bug): at `U` with shape `[2,2]` on edges `[5,6]` (edge `6`
shared, size 2, edge `5` dangling, size 2) and partner `V` with shape `[2]`
on edge `[6]`, the source's value-based filtering removes *every* dimension
equal to the shared size: the tracked shape after the step is `[]` (element
count 1), while the true post-contraction shape — removing only the shared
edge's dimension by edge identity — is `[2]` (element count 2). -/
theorem C3_shape_tracking_diverges_at_failing_input :
    stepShape (uEdgesOf ⟨[5, 6], [2, 2]⟩) [2, 2] ⟨[6], [2]⟩ = [] ∧
      (stepShape (uEdgesOf ⟨[5, 6], [2, 2]⟩) [2, 2] ⟨[6], [2]⟩).prod = 1 ∧
      trueContractedShape (uEdgesOf ⟨[5, 6], [2, 2]⟩) ⟨[6], [2]⟩ = [2] ∧
      (trueContractedShape (uEdgesOf ⟨[5, 6], [2, 2]⟩) ⟨[6], [2]⟩).prod = 2 ∧
      sizesSeq ⟨[5, 6], [2, 2]⟩ [⟨[6], [2]⟩] = [1] ∧
      contraction_path_minimize_U ⟨[5, 6], [2, 2]⟩ [⟨[6], [2]⟩] = (1, 0) := by
  decide

/-- Counterexample to C2: on `cexNodes` with group `D[e] = [(0,1),(0,2)]`
(anchor `0`), both orderings reach the same minimum size 2, `np.argmin`
breaks the tie to the first enumerated ordering `[1,2]`, whose peak simulated
size is 10 — strictly larger than the peak 6 of the other permutation
`[2,1]`.  So the chosen ordering does not minimize the peak anchor size. -/
theorem C2_claim_counterexample :
    List.Perm [2, 1] (jNodesOf [(0, 1), (0, 2)] 0) ∧
      chosenPermutation cexNodes [(0, 1), (0, 2)] 0 = [1, 2] ∧
      peakSize (cexNodes 0) ([2, 1].map cexNodes) = 6 ∧
      peakSize (cexNodes 0)
        ((chosenPermutation cexNodes [(0, 1), (0, 2)] 0).map cexNodes) = 10 ∧
      ¬(peakSize (cexNodes 0)
            ((chosenPermutation cexNodes [(0, 1), (0, 2)] 0).map cexNodes) ≤
          peakSize (cexNodes 0) ([2, 1].map cexNodes)) := by
  decide

/-- C2 amended: the ordering chosen by the scheduler minimizes the *minimum*
achieved anchor size over the simulation (the size at the chosen sketch
point), not the peak: its minimum achieved size is less than or equal to that
of every other permutation of the group. -/
theorem C2_chosen_minimum_achieved_size_optimal (nodes : ℕ → PNode)
    (D_e_i : List (ℕ × ℕ)) (i : ℕ) (p : List ℕ)
    (hp : p.Perm (jNodesOf D_e_i i)) :
    (contraction_path_minimize_U (nodes i)
        ((chosenPermutation nodes D_e_i i).map nodes)).1 ≤
      (contraction_path_minimize_U (nodes i) (p.map nodes)).1 :=
  chosen_minU_fst_le nodes D_e_i i (pyPerms_complete hp)

/-- Witness for the amended C2 at the concrete `cexNodes` group. -/
theorem C2_chosen_minimum_achieved_size_optimal_witness :
    List.Perm [2, 1] (jNodesOf [(0, 1), (0, 2)] 0) ∧
      (contraction_path_minimize_U (cexNodes 0)
          ((chosenPermutation cexNodes [(0, 1), (0, 2)] 0).map cexNodes)).1 ≤
        (contraction_path_minimize_U (cexNodes 0) ([2, 1].map cexNodes)).1 :=
  ⟨by decide,
    C2_chosen_minimum_achieved_size_optimal cexNodes [(0, 1), (0, 2)] 0 [2, 1]
      (by decide)⟩

/-- C8: for a group `D[e]`, the scheduler (a) selects an ordering whose
minimum achieved anchor size is smallest among all permutations of the
group's partners, (b) that reported minimum is the minimum of the simulated
sizes (the anchor's initial size included, as in the source), (c) the emitted
plan is the chosen ordering's contractions with the single sketch marker
placed immediately after the minimising step, and (d) the sketch position is
the first step index achieving the minimum (`-1`, i.e. before any
contraction, when no step goes below the initial size). -/
theorem C8_scheduler_minimum_and_sketch_placement (nodes : ℕ → PNode)
    (D_e_i : List (ℕ × ℕ)) (i : ℕ) :
    (∀ p : List ℕ, p.Perm (jNodesOf D_e_i i) →
        (contraction_path_minimize_U (nodes i)
            ((chosenPermutation nodes D_e_i i).map nodes)).1 ≤
          (contraction_path_minimize_U (nodes i) (p.map nodes)).1) ∧
      (contraction_path_minimize_U (nodes i)
          ((chosenPermutation nodes D_e_i i).map nodes)).1 =
        (sizesSeq (nodes i) ((chosenPermutation nodes D_e_i i).map nodes)).foldl
          min (nodes i).size ∧
      calculate_contraction_path_shapes nodes D_e_i i =
        ((chosenPermutation nodes D_e_i i).take
            (sketchIdxOf nodes D_e_i i + 1).toNat).map (fun j => (i, some j)) ++
          (i, (none : Option ℕ)) ::
            ((chosenPermutation nodes D_e_i i).drop
              (sketchIdxOf nodes D_e_i i + 1).toNat).map (fun j => (i, some j)) ∧
      sketchIdxOf nodes D_e_i i =
        (if (sizesSeq (nodes i) ((chosenPermutation nodes D_e_i i).map nodes)).foldl
              min (nodes i).size < (nodes i).size
         then (((sizesSeq (nodes i)
                  ((chosenPermutation nodes D_e_i i).map nodes)).indexOf
                ((sizesSeq (nodes i)
                  ((chosenPermutation nodes D_e_i i).map nodes)).foldl min
                  (nodes i).size) : ℕ) : ℤ)
         else -1) := by
  refine ⟨?_, ?_, ?_, ?_⟩
  · intro p hp
    exact chosen_minU_fst_le nodes D_e_i i (pyPerms_complete hp)
  · exact contraction_path_minimize_U_fst _ _
  · exact calculate_contraction_path_shapes_eq nodes D_e_i i
  · rw [sketchIdxOf_eq_chosen]
    exact contraction_path_minimize_U_snd _ _

/-- Witness for C8 at the concrete `cexNodes` group, specialising the
optimality conjunct to the permutation `[2,1]`. -/
theorem C8_scheduler_minimum_and_sketch_placement_witness :
    List.Perm [2, 1] (jNodesOf [(0, 1), (0, 2)] 0) ∧
      (contraction_path_minimize_U (cexNodes 0)
          ((chosenPermutation cexNodes [(0, 1), (0, 2)] 0).map cexNodes)).1 ≤
        (contraction_path_minimize_U (cexNodes 0) ([2, 1].map cexNodes)).1 :=
  ⟨by decide,
    (C8_scheduler_minimum_and_sketch_placement cexNodes [(0, 1), (0, 2)] 0).1
      [2, 1] (by decide)⟩

/-- C10: for a non-empty group `D[e]`, the emitted plan contains exactly one
sketch marker and exactly one contraction entry `(anchor, partner)` per group
entry (as a multiset, the contraction entries are the group's partners paired
with the anchor); consequently the executed segment issues exactly one sketch
call and exactly `|D[e]|` contract calls. -/
theorem C10_kronecker_plan_counts (nodes : ℕ → PNode) (anchor : Edge → ℕ)
    (e : Edge) (D_e_i : List (ℕ × ℕ)) (m : ℕ) (hne : D_e_i ≠ []) :
    (calculate_contraction_path_shapes nodes D_e_i (anchor e)).count
        (anchor e, (none : Option ℕ)) = 1 ∧
      List.Perm
        ((calculate_contraction_path_shapes nodes D_e_i (anchor e)).filter
          (fun p => p.2 ≠ none))
        (D_e_i.map (fun c =>
          (anchor e, some (if c.2 = anchor e then c.1 else c.2)))) ∧
      (kroneckerSegment nodes anchor e D_e_i m).countP isSketchOp = 1 ∧
      (kroneckerSegment nodes anchor e D_e_i m).countP isContractOp =
        D_e_i.length := by
  have hplan := calculate_contraction_path_shapes_eq nodes D_e_i (anchor e)
  have hA : ∀ p ∈ ((chosenPermutation nodes D_e_i (anchor e)).take
      (sketchIdxOf nodes D_e_i (anchor e) + 1).toNat).map
        (fun j => (anchor e, some j)), (p : ℕ × Option ℕ).2 ≠ none := by
    intro p hp
    rcases List.mem_map.1 hp with ⟨j, _, rfl⟩
    simp
  have hB : ∀ p ∈ ((chosenPermutation nodes D_e_i (anchor e)).drop
      (sketchIdxOf nodes D_e_i (anchor e) + 1).toNat).map
        (fun j => (anchor e, some j)), (p : ℕ × Option ℕ).2 ≠ none := by
    intro p hp
    rcases List.mem_map.1 hp with ⟨j, _, rfl⟩
    simp
  refine ⟨?_, ?_, ?_, ?_⟩
  · rw [hplan, List.count_append, List.count_cons]
    rw [List.count_eq_zero.2 (fun hmem => by
      have := hA _ hmem
      simp at this)]
    rw [List.count_eq_zero.2 (fun hmem => by
      have := hB _ hmem
      simp at this)]
    simp
  · rw [hplan, List.filter_append, List.filter_cons]
    rw [List.filter_eq_self.2 (fun a ha => by
      simpa using hA a ha)]
    rw [List.filter_eq_self.2 (fun a ha => by
      simpa using hB a ha)]
    rw [if_neg (by simp)]
    rw [← List.map_append, List.take_append_drop]
    have hperm := (chosenPermutation_perm nodes D_e_i (anchor e)).map
      (fun j => (anchor e, some j))
    rw [jNodesOf, List.map_map] at hperm
    simpa [Function.comp_def] using hperm
  · rw [kroneckerSegment,
      if_neg (fun h => hne (List.length_eq_zero.1 h)), hplan,
      List.map_append, List.map_cons, List.countP_append, List.countP_cons]
    have hzero : ∀ l : List ℕ,
        List.countP isSketchOp
          ((l.map (fun j => ((anchor e), some j))).map
            (fun p : ℕ × Option ℕ => match p.2 with
              | none => Op.sketch e m
              | some j => Op.contract p.1 j)) = 0 := by
      intro l
      rw [List.countP_eq_zero.2]
      intro a ha
      rcases List.mem_map.1 ha with ⟨q, hq, rfl⟩
      rcases List.mem_map.1 hq with ⟨j, _, rfl⟩
      simp [isSketchOp]
    rw [hzero, hzero]
    simp [isSketchOp]
  · rw [kroneckerSegment,
      if_neg (fun h => hne (List.length_eq_zero.1 h)), hplan,
      List.map_append, List.map_cons, List.countP_append, List.countP_cons]
    have hlen : ((chosenPermutation nodes D_e_i (anchor e)).take
          (sketchIdxOf nodes D_e_i (anchor e) + 1).toNat).length +
        ((chosenPermutation nodes D_e_i (anchor e)).drop
          (sketchIdxOf nodes D_e_i (anchor e) + 1).toNat).length =
        D_e_i.length := by
      rw [← List.length_append, List.take_append_drop]
      exact chosenPermutation_length nodes D_e_i (anchor e)
    have hcontr : ∀ l : List ℕ,
        List.countP isContractOp
          ((l.map (fun j => ((anchor e), some j))).map
            (fun p : ℕ × Option ℕ => match p.2 with
              | none => Op.sketch e m
              | some j => Op.contract p.1 j)) = l.length := by
      intro l
      rw [List.countP_eq_length.2, List.length_map, List.length_map]
      intro a ha
      rcases List.mem_map.1 ha with ⟨q, hq, rfl⟩
      rcases List.mem_map.1 hq with ⟨j, _, rfl⟩
      rfl
    rw [hcontr, hcontr]
    simp only [List.length_take, List.length_drop] at hlen
    simp [isContractOp]
    omega

/-- Witness for C10 at the concrete `cexNodes` group (`D[e]` has two
entries, anchored at node 0 through edge 10). -/
theorem C10_kronecker_plan_counts_witness :
    (([(0, 1), (0, 2)] : List (ℕ × ℕ)) ≠ []) ∧
      (kroneckerSegment cexNodes (fun _ => 0) 10 [(0, 1), (0, 2)] 7).countP
        isSketchOp = 1 := by
  refine ⟨by decide, ?_⟩
  exact (C10_kronecker_plan_counts cexNodes (fun _ => 0) 10 [(0, 1), (0, 2)] 7
    (by decide)).2.2.1

/-- C9: the tree-embedding pass walks `I_S` in the original contraction-path
order and, entry by entry, dispatches entries also in `S` to the joint
sketch-and-contract operation selected by `is_tn_embedding` (TN-style when
true, tree-style when false) with dimension `m`, and all other entries to
plain contraction. -/
theorem C9_tree_embedding_dispatch (S I_S : List (ℕ × ℕ))
    (is_tn_embedding : Bool) (m : ℕ) :
    (contract_and_sketch_tree_embedding S I_S is_tn_embedding m).length =
        I_S.length ∧
      ∀ k, k < I_S.length →
        (contract_and_sketch_tree_embedding S I_S is_tn_embedding m).getD k
            (Op.contract 0 0) =
          (if I_S.getD k (0, 0) ∈ S then
            (if is_tn_embedding then
              Op.tn_sketch_and_contract_s (I_S.getD k (0, 0)).1
                (I_S.getD k (0, 0)).2 m
             else
              Op.tree_sketch_and_contract (I_S.getD k (0, 0)).1
                (I_S.getD k (0, 0)).2 m)
           else Op.contract (I_S.getD k (0, 0)).1 (I_S.getD k (0, 0)).2) := by
  constructor
  · rw [contract_and_sketch_tree_embedding, List.length_map]
  · intro k hk
    have hk' : k < (contract_and_sketch_tree_embedding S I_S is_tn_embedding m).length := by
      rw [contract_and_sketch_tree_embedding, List.length_map]
      exact hk
    rw [List.getD_eq_getElem _ _ hk', List.getD_eq_getElem _ _ hk]
    simp only [contract_and_sketch_tree_embedding, List.getElem_map]

/-- Witness for C9: with `S = [(0,1)]`, `I_S = [(0,1),(2,3)]`, the first
entry dispatches to the tree-style joint operation with `m = 4`. -/
theorem C9_tree_embedding_dispatch_witness :
    0 < ([(0, 1), (2, 3)] : List (ℕ × ℕ)).length ∧
      (contract_and_sketch_tree_embedding [(0, 1)] [(0, 1), (2, 3)] false 4).getD
          0 (Op.contract 0 0) =
        Op.tree_sketch_and_contract 0 1 4 := by
  refine ⟨by decide, ?_⟩
  rw [(C9_tree_embedding_dispatch [(0, 1)] [(0, 1), (2, 3)] false 4).2 0
    (by decide)]
  decide

/-- C1: across a whole `embed` run, every edge that was initially in
`get_edges_to_sketch()` receives exactly one sketch.  The Kronecker pass
sketches each dict key exactly once (directly for empty groups, through the
single plan marker otherwise); by then nothing is pending, so the joint
sketch-and-contract operations of the tree pass — which, per the spec
contract (modelled by the `joint`/`hjoint` parameter), sketch only
dimensions still requiring sketching — sketch nothing further. -/
theorem C1_embed_sketches_each_edge_once (dang : ℕ → List Edge)
    (nodes : ℕ → PNode) (anchor : Edge → ℕ) (edges : List Edge)
    (path : List (ℕ × ℕ)) (is_tn_embedding : Bool) (m : ℕ)
    (joint : ℕ → ℕ → List Edge → List Edge)
    (hjoint : ∀ a b pend e, e ∈ joint a b pend → e ∈ pend)
    (hnd : edges.Nodup) :
    ∀ e ∈ edges,
      (sketchEvents joint
        (embedTrace dang nodes anchor edges path is_tn_embedding m)
        edges).count e = 1 := by
  intro e he
  simp only [embedTrace]
  rw [sketchEvents_append]
  have hkron := kronecker_pass_events joint nodes anchor edges
    ((partition_contractions dang path edges).D) m edges
  rw [hkron.1, hkron.2, foldl_erase_self]
  rw [tree_pass_no_events joint hjoint _ _ _ _, List.append_nil]
  exact List.count_eq_one_of_mem hnd he

/-- Witness for C1: a two-edge network whose single path entry needs the
joint tree operation; both edges are sketched exactly once. -/
theorem C1_embed_sketches_each_edge_once_witness :
    ([0, 1] : List Edge).Nodup ∧
      (sketchEvents (fun _ _ _ => [])
        (embedTrace (fun n => if n = 0 then [0] else if n = 1 then [1] else [])
          (fun _ => ⟨[], []⟩) (fun _ => 0) [0, 1] [(0, 1)] false 3)
        [0, 1]).count 0 = 1 :=
  ⟨by decide,
    C1_embed_sketches_each_edge_once
      (fun n => if n = 0 then [0] else if n = 1 then [1] else [])
      (fun _ => ⟨[], []⟩) (fun _ => 0) [0, 1] [(0, 1)] false 3
      (fun _ _ _ => []) (fun _ _ _ e h => absurd h (List.not_mem_nil e))
      (by decide) 0 (by decide)⟩
